import Mathlib

/-!
Shallow embedding of `src/gb_baseline/baseline.ipynb` (gradient-boosting
baseline for the credit-default task): the `CountAggregator` transformer
(cell 15), the KFold cross-validation loop (cell 28) and the ensembling
scorer (cell 33), together with theorems about them.

Modelling conventions:
* a parquet batch (the frame returned by `read_parquet_dataset_from_local`
  for one chunk of partitions) is a `Batch`: its column list minus
  `id`/`rn` (`featCols`) plus its rows (`HistoryRecord`s);
* categorical cell values are the integer category codes of the dataset,
  so a one-hot dummy column produced by `pd.get_dummies` is identified by
  the pair (original column name, category value);
* `pd.get_dummies` emits, for each original column, one indicator column
  per distinct observed value in ascending value order; `groupby("id")`
  sorts the distinct ids ascending;
* `pd.concat` keeps the first frame's columns and appends the unseen
  columns of later frames in order of appearance; entries missing after
  concatenation are the ones `fillna(0)` sets to zero, which `lookupCol`'s
  default-0 lookup reproduces;
* the boosted-tree models of the training loop are abstracted as
  prediction functions (fold index → entity position → probability in ℚ).
-/

deriving instance DecidableEq for Except

/-- A one-hot dummy column: (original categorical column, category value). -/
abbrev DummyCol := String × Nat

/-- One row of a raw credit-history batch: entity `id`, sequence index `rn`,
and the categorical cells aligned with the batch's feature columns. -/
structure HistoryRecord where
  id : Nat
  rn : Nat
  cells : List Nat
deriving DecidableEq

/-- One in-memory batch as read by `read_parquet_dataset_from_local`:
the feature columns (all columns except `id` and `rn`) and the rows. -/
structure Batch where
  featCols : List String
  recs : List HistoryRecord
deriving DecidableEq

/-- Value of a record's cell in a named column (positional lookup in the
batch's column list); `none` when the column is absent. -/
def cellVal : List String → List Nat → String → Option Nat
  | [], _, _ => none
  | _ :: _, [], _ => none
  | c0 :: cs, x :: xs, c => if c0 = c then some x else cellVal cs xs c

/-- Distinct values in ascending order, as `pd.get_dummies` and sorted
`groupby` enumerate categories/keys. -/
def sortedValues (l : List Nat) : List Nat :=
  l.dedup.insertionSort (· ≤ ·)

/-- The dummy columns `pd.get_dummies(data_frame[feature_columns])` creates
for a batch: for each feature column (in column order), one column per
distinct observed value (ascending). -/
def dummyColumns (b : Batch) : List DummyCol :=
  b.featCols.flatMap (fun c =>
    (sortedValues (b.recs.filterMap (fun r => cellVal b.featCols r.cells c))).map
      (fun v => (c, v)))

/-- The 0/1 entry of a record's one-hot row in a dummy column. -/
def dummyValue (b : Batch) (r : HistoryRecord) (cv : DummyCol) : Nat :=
  if cellVal b.featCols r.cells cv.1 = some cv.2 then 1 else 0

/-- The distinct ids of a batch, ascending (the group keys of
`ohe_features.groupby("id")`). -/
def batchIds (b : Batch) : List Nat :=
  sortedValues (b.recs.map (·.id))

/-- An aggregated feature frame: the `id` column is implicit (first), the
dummy columns follow; each row is an id with its counts aligned to `cols`. -/
structure FeatureFrame where
  cols : List DummyCol
  rows : List (Nat × List Nat)
deriving DecidableEq

/-- Method `CountAggregator.__extract_count_aggregations`: one-hot-encode the
batch and sum the indicator columns per entity id
(`ohe_features.groupby("id")[dummy_features].sum().reset_index()`). -/
def extract_count_aggregations (b : Batch) : FeatureFrame :=
  { cols := dummyColumns b
    rows := (batchIds b).map (fun i =>
      (i, (dummyColumns b).map (fun cv =>
        ((b.recs.filter (fun r => r.id = i)).map (fun r => dummyValue b r cv)).sum))) }

/-- Value of an aggregated row in a dummy column, by position in the
frame's column list; 0 when the column is absent (the value `fillna(0)`
would put there). -/
def lookupCol : List DummyCol → List Nat → DummyCol → Nat
  | [], _, _ => 0
  | _ :: _, [], _ => 0
  | c0 :: cs, x :: xs, c => if c0 = c then x else lookupCol cs xs c

/-- Column list of `pd.concat(preprocessed_frames)` starting from `acc`:
each frame appends its columns not seen so far, in order. -/
def concatColsFrom (acc : List DummyCol) : List FeatureFrame → List DummyCol
  | [] => acc
  | t :: ts => concatColsFrom (acc ++ t.cols.filter (fun c => c ∉ acc)) ts

/-- Column list of `pd.concat(preprocessed_frames)`. -/
def concatCols (frames : List FeatureFrame) : List DummyCol :=
  concatColsFrom [] frames

/-- The step `pd.concat(preprocessed_frames)` followed by `fillna(np.uint8(0))`:
rows are stacked in frame order, each row realigned to the union column
list, with 0 in the columns its own frame lacked. -/
def concatFill (frames : List FeatureFrame) : FeatureFrame :=
  { cols := concatCols frames
    rows := frames.flatMap (fun t =>
      t.rows.map (fun r => (r.1, (concatCols frames).map (lookupCol t.cols r.2)))) }

/-- The transform-mode loop `for col in self.encoded_features: if not col in
dummy_features: features[col] = np.uint8(0)`: append an all-zero column for
every frozen-schema column the concatenated frame lacks. -/
def addZeroCols (t : FeatureFrame) (schema : List DummyCol) : FeatureFrame :=
  { cols := t.cols ++ schema.filter (fun c => c ∉ t.cols)
    rows := t.rows.map (fun r =>
      (r.1, r.2 ++ (schema.filter (fun c => c ∉ t.cols)).map (fun _ => 0))) }

/-- The final column selection `features[["id"] + self.encoded_features]`. -/
def projectColumns (t : FeatureFrame) (cols : List DummyCol) : FeatureFrame :=
  { cols := cols
    rows := t.rows.map (fun r => (r.1, cols.map (lookupCol t.cols r.2))) }

/-- The `mode` argument of `__transform_data`; the leading
`assert mode in ["fit_transform", "transform"]` makes any other string
fatal before data is read, so only these two modes exist. -/
inductive Mode where
  | fit_transform
  | transform
deriving DecidableEq

/-- The `CountAggregator` instance state: `self.encoded_features`, `None`
until a fit establishes the frozen schema. -/
structure CountAggregator where
  encoded_features : Option (List DummyCol)
deriving DecidableEq

/-- Method `CountAggregator.__transform_data`: process every batch with
`__extract_count_aggregations` (writing each per-batch frame to the sink
when `save_to_path` is given), concatenate, `fillna(0)`, then either freeze
the observed schema (`fit_transform`) or check fittedness and realign to
the frozen schema (`transform`). Returns (per-batch artifacts written,
aggregator state after the call, result or error). -/
def transform_data (st : CountAggregator) (batches : List Batch) (mode : Mode)
    (save_to_path : Bool) :
    List FeatureFrame × CountAggregator × Except String FeatureFrame :=
  let frames := batches.map extract_count_aggregations
  let artifacts := if save_to_path then frames else []
  let features := concatFill frames
  let dummy_features := features.cols
  match mode with
  | Mode.fit_transform =>
      (artifacts, ⟨some dummy_features⟩,
        Except.ok (projectColumns features dummy_features))
  | Mode.transform =>
      match st.encoded_features with
      | none => (artifacts, st, Except.error "Transformer not fitted")
      | some enc =>
          (artifacts, st,
            Except.ok (projectColumns (addZeroCols features enc) enc))

/-- Public method `CountAggregator.fit_transform`. -/
def CountAggregator.fit_transform (st : CountAggregator) (batches : List Batch)
    (save_to_path : Bool) :
    List FeatureFrame × CountAggregator × Except String FeatureFrame :=
  transform_data st batches Mode.fit_transform save_to_path

/-- Public method `CountAggregator.transform`. -/
def CountAggregator.transform (st : CountAggregator) (batches : List Batch)
    (save_to_path : Bool) :
    List FeatureFrame × CountAggregator × Except String FeatureFrame :=
  transform_data st batches Mode.transform save_to_path

/-! ### Cross-validation (cell 28) and scoring (cell 33) -/

/-- sklearn `KFold` fold sizes for `n` samples and `k` splits: the first
`n % k` folds get `n / k + 1` samples, the rest `n / k`. -/
def foldSizes (n k : Nat) : List Nat :=
  (List.range k).map (fun j => n / k + if j < n % k then 1 else 0)

/-- Cut a shuffled index list into consecutive slices of the given sizes. -/
def splitSlices : List Nat → List Nat → List (List Nat)
  | _, [] => []
  | perm, s :: rest => perm.take s :: splitSlices (perm.drop s) rest

/-- The validation folds of `KFold(n_splits=k, shuffle=True)` applied to a
shuffled index list `perm` (a permutation of `range n` drawn from the
seeded RNG): consecutive slices of `perm` with sklearn's fold sizes. -/
def validationFolds (perm : List Nat) (k : Nat) : List (List Nat) :=
  splitSlices perm (foldSizes perm.length k)

/-- sklearn's training indices for one fold: `range n` minus the fold's
validation indices, ascending. -/
def trainIndices (n : Nat) (valFold : List Nat) : List Nat :=
  (List.range n).filter (fun i => i ∉ valFold)

/-- How many folds write position `i` of the out-of-fold vector: one write
of `oof[val_idx]` per fold whose validation indices contain `i`. -/
def oofWriteCount (folds : List (List Nat)) (i : Nat) : Nat :=
  folds.countP (fun f => i ∈ f)

/-- The property that `perm` is a shuffle (permutation) of `range n`,
as produced by `KFold(shuffle=True)`'s seeded RNG. -/
def IsShuffle (perm : List Nat) : Prop :=
  perm.Perm (List.range perm.length)

instance (perm : List Nat) : Decidable (IsShuffle perm) :=
  List.decidablePerm _ _

/-- The loop body chain for `train_preds[train_idx] +=
predict_proba(train)[:, 1] / (cv.n_splits - 1)`: starting from fold index
`f` and accumulator `acc`, each fold adds its model's scaled prediction at
its training positions. `p f i` abstracts fold `f`'s model's predicted
positive-class probability for position `i`; `d` is `cv.n_splits - 1`. -/
def trainPredsAux (p : Nat → Nat → ℚ) (d : ℚ) :
    Nat → List (List Nat) → (Nat → ℚ) → Nat → ℚ
  | _, [], acc => acc
  | f, tidx :: rest, acc =>
      trainPredsAux p d (f + 1) rest
        (fun i => if i ∈ tidx then acc i + p f i / d else acc i)

/-- The `train_preds` vector after the cell-28 loop (fold indices start at
1, as in `enumerate(cv.split(...), 1)`), as a function of position. -/
def train_preds (p : Nat → Nat → ℚ) (k : Nat) (foldsTrain : List (List Nat)) :
    Nat → ℚ :=
  trainPredsAux p ((k - 1 : Nat) : ℚ) 1 foldsTrain (fun _ => 0)

/-- The sum, over the folds (indexed from `f`) whose training indices
contain `i`, of that fold's prediction at `i`. -/
def predSumOver (p : Nat → Nat → ℚ) (i : Nat) : Nat → List (List Nat) → ℚ
  | _, [] => 0
  | f, tidx :: rest => (if i ∈ tidx then p f i else 0) + predSumOver p i (f + 1) rest

/-- The cell-33 loop `for model in models: score +=
model.predict_proba(...)[:, 1] / len(models)`: `m` is the fixed
`len(models)`, each model is abstracted as its prediction function. -/
def scoreAux (m : Nat) : List (Nat → ℚ) → (Nat → ℚ) → Nat → ℚ
  | [], s => s
  | p :: rest, s => scoreAux m rest (fun i => s i + p i / (m : ℚ))

/-- The final `score` vector of cell 33. -/
def score (models : List (Nat → ℚ)) : Nat → ℚ :=
  scoreAux models.length models (fun _ => 0)

/-! ### A concrete toy dataset: 2 partitions, 3 entities, 2 categorical
columns (`f1`, `f2`) with 2 category values (0, 1) each, every
(column, value) combination observed. -/

/-- First toy partition: entity 1 with one record, entity 2 with two. -/
def toyBatch1 : Batch :=
  ⟨["f1", "f2"], [⟨1, 1, [0, 0]⟩, ⟨2, 1, [1, 0]⟩, ⟨2, 2, [0, 1]⟩]⟩

/-- Second toy partition: entity 3 with one record. -/
def toyBatch2 : Batch :=
  ⟨["f1", "f2"], [⟨3, 1, [1, 1]⟩]⟩

/-- The toy dataset read one partition per batch. -/
def toyBatches : List Batch := [toyBatch1, toyBatch2]

/-- The feature table `fit_transform` returns on the toy dataset. -/
def toyFeatures : FeatureFrame :=
  match (CountAggregator.fit_transform ⟨none⟩ toyBatches false).2.2 with
  | Except.ok t => t
  | Except.error _ => ⟨[], []⟩

/-- Number of history records of an entity in the toy dataset. -/
def toyRecordCount (i : Nat) : Nat :=
  ((toyBatches.flatMap (fun b => b.recs)).filter (fun r => r.id = i)).length

/-! ### Helper lemmas -/

theorem lookupCol_map (cols : List DummyCol) (f : DummyCol → Nat) (c : DummyCol) :
    lookupCol cols (cols.map f) c = if c ∈ cols then f c else 0 := by
  induction cols with
  | nil => simp [lookupCol]
  | cons c0 cs ih =>
    simp only [List.map_cons, lookupCol, List.mem_cons]
    by_cases h : c0 = c
    · subst h; simp
    · have h' : ¬ c = c0 := fun hc => h hc.symm
      simp [h, h', ih]

theorem lookupCol_map_zero (cols : List DummyCol) (c : DummyCol) :
    lookupCol cols (cols.map (fun _ => 0)) c = 0 := by
  rw [lookupCol_map]; split <;> rfl

theorem lookupCol_append (a b : List DummyCol) (x y : List Nat) (c : DummyCol)
    (hlen : a.length = x.length) :
    lookupCol (a ++ b) (x ++ y) c =
      if c ∈ a then lookupCol a x c else lookupCol b y c := by
  induction a generalizing x with
  | nil =>
    have : x = [] := by
      cases x with
      | nil => rfl
      | cons _ _ => simp at hlen
    subst this; simp [lookupCol]
  | cons c0 cs ih =>
    cases x with
    | nil => simp at hlen
    | cons v vs =>
      simp only [List.cons_append, lookupCol, List.mem_cons]
      by_cases h : c0 = c
      · subst h; simp
      · have h' : ¬ c = c0 := fun hc => h hc.symm
        have hlen' : cs.length = vs.length := by simpa using hlen
        simp [h, h', ih vs hlen']

theorem mem_concatColsFrom (frames : List FeatureFrame) (acc : List DummyCol)
    (c : DummyCol) :
    c ∈ concatColsFrom acc frames ↔ c ∈ acc ∨ ∃ t ∈ frames, c ∈ t.cols := by
  induction frames generalizing acc with
  | nil => simp [concatColsFrom]
  | cons t ts ih =>
    simp only [concatColsFrom, ih, List.mem_append, List.mem_filter,
      decide_eq_true_eq, List.mem_cons]
    constructor
    · rintro (((h | ⟨h, _⟩) | ⟨u, hu, hc⟩))
      · exact Or.inl h
      · exact Or.inr ⟨t, Or.inl rfl, h⟩
      · exact Or.inr ⟨u, Or.inr hu, hc⟩
    · rintro (h | ⟨u, (rfl | hu), hc⟩)
      · exact Or.inl (Or.inl h)
      · by_cases ha : c ∈ acc
        · exact Or.inl (Or.inl ha)
        · exact Or.inl (Or.inr ⟨hc, ha⟩)
      · exact Or.inr ⟨u, hu, hc⟩

theorem mem_concatCols (frames : List FeatureFrame) (c : DummyCol) :
    c ∈ concatCols frames ↔ ∃ t ∈ frames, c ∈ t.cols := by
  simp [concatCols, mem_concatColsFrom]

theorem scoreAux_eq (m : Nat) (l : List (Nat → ℚ)) (s : Nat → ℚ) (i : Nat) :
    scoreAux m l s i = s i + (l.map (fun p => p i)).sum / (m : ℚ) := by
  induction l generalizing s with
  | nil => simp [scoreAux]
  | cons p rest ih =>
    simp only [scoreAux, List.map_cons, List.sum_cons]
    rw [ih, add_div]
    ring

/-! ### Claim theorems -/

/-- C4: `transform` on a fitted aggregator leaves the frozen schema
untouched (`__transform_data` only assigns `self.encoded_features` in
`fit_transform` mode), so running `transform` again — with the state the
first call left behind, on the same input — reproduces the first call's
output bit for bit. -/
theorem C4_transform_idempotent_schema_frozen (enc : List DummyCol)
    (batches : List Batch) (save_to_path : Bool) :
    (CountAggregator.transform ⟨some enc⟩ batches save_to_path).2.1 = ⟨some enc⟩ ∧
    CountAggregator.transform
        ((CountAggregator.transform ⟨some enc⟩ batches save_to_path).2.1)
        batches save_to_path =
      CountAggregator.transform ⟨some enc⟩ batches save_to_path :=
  ⟨rfl, rfl⟩

/-- C5: `transform` on an aggregator whose `encoded_features` is still
`None` (no successful `fit_transform` ever ran) fails with the
not-fitted error, surfaced to the caller. -/
theorem C5_unfitted_transform_fails (batches : List Batch) (save_to_path : Bool) :
    (CountAggregator.transform ⟨none⟩ batches save_to_path).2.2 =
      Except.error "Transformer not fitted" := rfl

/-- C10: the fittedness assertion of `__transform_data` sits after the
batch loop, so an unfitted `transform` call still reads, one-hot-expands
and aggregates every batch — and, when a sink path is given, writes every
per-batch artifact — before failing, and it leaves the aggregator's state
unchanged (schema still absent). -/
theorem C10_unfitted_transform_processes_all_batches (batches : List Batch)
    (save_to_path : Bool) :
    CountAggregator.transform ⟨none⟩ batches save_to_path =
      ((if save_to_path then batches.map extract_count_aggregations else []),
        ⟨none⟩, Except.error "Transformer not fitted") := rfl

/-- C8: the cell-33 scoring loop produces, at every position, the
unweighted arithmetic mean over the retained fold models of that model's
predicted positive-class probability (each iteration adds
`predict_proba / len(models)`); determinism is definitional here, since
`score` is a pure function of the models and the features. -/
theorem C8_score_is_unweighted_mean (models : List (Nat → ℚ)) (i : Nat) :
    score models i = (models.map (fun p => p i)).sum / (models.length : ℚ) := by
  simp [score, scoreAux_eq]

/-- C9 (counterexample): on the toy dataset — 2 partitions, 3 entities,
2 categorical columns with 2 categories each, all combinations observed —
the row of entity 1 is `[1, 0, 1, 0]` with sum 2 while entity 1 has exactly
one history record: each record contributes one count per categorical
column, so row sums are twice the record count, not the record count. -/
theorem C9_row_sum_counterexample :
    ¬ (∀ r ∈ toyFeatures.rows, r.2.sum = toyRecordCount r.1) := by decide

/-- C9 (amended): on the toy dataset, `fit_transform` returns a feature
table with exactly the `id` column plus 4 one-hot count columns, one row
per entity, and every entity's row sum equals the number of categorical
columns (2) times that entity's record count. -/
theorem C9_toy_dataset_shape_and_row_sums :
    toyFeatures.cols.length = 4 ∧
    toyFeatures.rows.map Prod.fst = [1, 2, 3] ∧
    ∀ r ∈ toyFeatures.rows, r.2.sum = 2 * toyRecordCount r.1 := by decide

/-! ### Helper lemmas for the KFold split -/

theorem sum_map_add_nat (l : List Nat) (f g : Nat → Nat) :
    (l.map (fun j => f j + g j)).sum = (l.map f).sum + (l.map g).sum := by
  induction l with
  | nil => rfl
  | cons a t ih => simp only [List.map_cons, List.sum_cons, ih]; omega

theorem sum_map_const_nat (l : List Nat) (c : Nat) :
    (l.map (fun _ => c)).sum = l.length * c := by
  induction l with
  | nil => simp
  | cons a t ih =>
    simp only [List.map_cons, List.sum_cons, List.length_cons, ih]
    ring

theorem sum_range_if_lt (k m : Nat) :
    ((List.range k).map (fun j => if j < m then 1 else 0)).sum = min m k := by
  induction k with
  | zero => simp
  | succ k ih =>
    rw [List.range_succ, List.map_append, List.sum_append, ih]
    by_cases h : k < m
    · simp only [List.map_cons, List.map_nil, if_pos h, List.sum_cons, List.sum_nil]
      omega
    · simp only [List.map_cons, List.map_nil, if_neg h, List.sum_cons, List.sum_nil]
      omega

theorem sum_foldSizes (n k : Nat) (hk : 0 < k) : (foldSizes n k).sum = n := by
  unfold foldSizes
  rw [sum_map_add_nat, sum_map_const_nat, sum_range_if_lt, List.length_range]
  have hlt : n % k < k := Nat.mod_lt _ hk
  rw [min_eq_left (Nat.le_of_lt hlt)]
  exact Nat.div_add_mod n k

theorem flatten_splitSlices (sizes : List Nat) (perm : List Nat) :
    (splitSlices perm sizes).flatten = perm.take sizes.sum := by
  induction sizes generalizing perm with
  | nil => simp [splitSlices]
  | cons s rest ih =>
    simp only [splitSlices, List.flatten_cons, List.sum_cons, ih]
    rw [List.take_add]

theorem length_splitSlices (sizes : List Nat) (perm : List Nat) :
    (splitSlices perm sizes).length = sizes.length := by
  induction sizes generalizing perm with
  | nil => rfl
  | cons s rest ih => simp [splitSlices, ih]

theorem flatten_validationFolds (perm : List Nat) (k : Nat) (hk : 0 < k) :
    (validationFolds perm k).flatten = perm := by
  unfold validationFolds
  rw [flatten_splitSlices, sum_foldSizes _ _ hk, List.take_length]

theorem length_validationFolds (perm : List Nat) (k : Nat) :
    (validationFolds perm k).length = k := by
  unfold validationFolds
  rw [length_splitSlices]
  simp [foldSizes]

theorem countP_mem_of_not_mem_flatten (folds : List (List Nat)) (i : Nat)
    (h : i ∉ folds.flatten) : folds.countP (fun f => i ∈ f) = 0 := by
  rw [List.countP_eq_zero]
  intro f hf
  simp only [decide_eq_true_eq]
  exact fun hif => h (List.mem_flatten.2 ⟨f, hf, hif⟩)

theorem countP_mem_of_flatten_nodup (folds : List (List Nat)) (i : Nat)
    (hnd : folds.flatten.Nodup) (hmem : i ∈ folds.flatten) :
    folds.countP (fun f => i ∈ f) = 1 := by
  induction folds with
  | nil => simp at hmem
  | cons f rest ih =>
    rw [List.flatten_cons] at hnd hmem
    obtain ⟨h1, h2, hdisj⟩ := List.nodup_append.1 hnd
    rw [List.countP_cons]
    by_cases hif : i ∈ f
    · have hnotrest : i ∉ rest.flatten := fun hr => hdisj hif hr
      rw [countP_mem_of_not_mem_flatten rest i hnotrest]
      simp [hif]
    · have hrest : i ∈ rest.flatten := by
        rcases List.mem_append.1 hmem with h | h
        · exact absurd h hif
        · exact h
      rw [ih h2 hrest]
      simp [hif]

theorem countP_mem_add_countP_not_mem (l : List (List Nat)) (i : Nat) :
    l.countP (fun f => i ∈ f) + l.countP (fun f => i ∉ f) = l.length := by
  induction l with
  | nil => rfl
  | cons t rest ih =>
    rw [List.countP_cons, List.countP_cons, List.length_cons]
    by_cases h : i ∈ t
    · rw [if_pos (by simpa using h), if_neg (by simpa using h)]
      omega
    · rw [if_neg (by simpa using h), if_pos (by simpa using h)]
      omega

theorem trainPredsAux_eq (p : Nat → Nat → ℚ) (d : ℚ) (l : List (List Nat))
    (f : Nat) (acc : Nat → ℚ) (i : Nat) :
    trainPredsAux p d f l acc i = acc i + predSumOver p i f l / d := by
  induction l generalizing f acc with
  | nil => simp [trainPredsAux, predSumOver]
  | cons t rest ih =>
    simp only [trainPredsAux, predSumOver]
    rw [ih, add_div]
    by_cases h : i ∈ t
    · simp only [if_pos h]; ring
    · simp only [if_neg h]; ring

/-- C6: when the shuffled index list is a permutation of `range n` (which
`KFold(shuffle=True)`'s RNG guarantees) and `k > 0`, the KFold split of
cell 28 yields exactly `k` validation folds whose union is the full index
set, and every index lies in exactly one of them — so each position of the
`oof` vector is written exactly once across the run. -/
theorem C6_folds_disjoint_exhaustive (perm : List Nat) (k : Nat)
    (hperm : IsShuffle perm) (hk : 0 < k) :
    (validationFolds perm k).length = k ∧
    (∀ i, i ∈ (validationFolds perm k).flatten ↔ i < perm.length) ∧
    (∀ i, i < perm.length → oofWriteCount (validationFolds perm k) i = 1) := by
  have hp : perm.Perm (List.range perm.length) := hperm
  have hflat := flatten_validationFolds perm k hk
  have hnd : perm.Nodup := hp.nodup_iff.2 (List.nodup_range _)
  refine ⟨length_validationFolds perm k, ?_, ?_⟩
  · intro i
    rw [hflat, hp.mem_iff, List.mem_range]
  · intro i hi
    unfold oofWriteCount
    apply countP_mem_of_flatten_nodup
    · rw [hflat]; exact hnd
    · rw [hflat, hp.mem_iff, List.mem_range]; exact hi

theorem C6_folds_disjoint_exhaustive_witness :
    (validationFolds [2, 0, 1] 2).length = 2 ∧
    (∀ i, i ∈ (validationFolds [2, 0, 1] 2).flatten ↔ i < 3) ∧
    (∀ i, i < 3 → oofWriteCount (validationFolds [2, 0, 1] 2) i = 1) :=
  C6_folds_disjoint_exhaustive [2, 0, 1] 2 (by decide) (by decide)

/-- C7: the cell-28 accumulation `train_preds[train_idx] +=
predict_proba(train)[:, 1] / (cv.n_splits - 1)` gives every position `i`
the value `(sum of the predictions of the folds whose training indices
contain i) / (k - 1)`; under the KFold invariants, position `i` lies in the
training indices of exactly `k - 1` folds, and its own validation fold's
training indices exclude it, so that fold contributes nothing. -/
theorem C7_train_preds_accumulation (perm : List Nat) (k : Nat)
    (p : Nat → Nat → ℚ) (hperm : IsShuffle perm) (hk : 0 < k)
    (i : Nat) (hi : i < perm.length) :
    train_preds p k ((validationFolds perm k).map (trainIndices perm.length)) i =
      predSumOver p i 1 ((validationFolds perm k).map (trainIndices perm.length)) /
        ((k - 1 : Nat) : ℚ) ∧
    ((validationFolds perm k).map (trainIndices perm.length)).countP
        (fun t => i ∈ t) = k - 1 ∧
    (∀ valf ∈ validationFolds perm k, i ∈ valf → i ∉ trainIndices perm.length valf) := by
  have hp : perm.Perm (List.range perm.length) := hperm
  have hflat := flatten_validationFolds perm k hk
  have hnd : perm.Nodup := hp.nodup_iff.2 (List.nodup_range _)
  refine ⟨?_, ?_, ?_⟩
  · unfold train_preds
    rw [trainPredsAux_eq]
    simp
  · rw [List.countP_map]
    have hone : (validationFolds perm k).countP (fun f => i ∈ f) = 1 := by
      apply countP_mem_of_flatten_nodup
      · rw [hflat]; exact hnd
      · rw [hflat, hp.mem_iff, List.mem_range]; exact hi
    have hcong : (validationFolds perm k).countP
          ((fun t => decide (i ∈ t)) ∘ trainIndices perm.length) =
        (validationFolds perm k).countP (fun f => i ∉ f) := by
      apply List.countP_congr
      intro f _
      simp only [Function.comp_apply, decide_eq_true_eq, trainIndices,
        List.mem_filter, List.mem_range]
      constructor
      · rintro ⟨_, hnf⟩; simpa using hnf
      · intro hnf; exact ⟨hi, by simpa using hnf⟩
    rw [hcong]
    have hlen := length_validationFolds perm k
    have hsum := countP_mem_add_countP_not_mem (validationFolds perm k) i
    omega
  · intro valf _ hiv hmem
    rw [trainIndices, List.mem_filter] at hmem
    have : i ∉ valf := by simpa using hmem.2
    exact this hiv

theorem C7_train_preds_accumulation_witness :
    train_preds (fun _ _ => (1 : ℚ)) 3
        ((validationFolds [1, 0, 2] 3).map (trainIndices 3)) 0 =
      predSumOver (fun _ _ => (1 : ℚ)) 0 1
          ((validationFolds [1, 0, 2] 3).map (trainIndices 3)) /
        ((3 - 1 : Nat) : ℚ) ∧
    ((validationFolds [1, 0, 2] 3).map (trainIndices 3)).countP
        (fun t => 0 ∈ t) = 3 - 1 ∧
    (∀ valf ∈ validationFolds [1, 0, 2] 3, 0 ∈ valf → 0 ∉ trainIndices 3 valf) := by
  exact C7_train_preds_accumulation [1, 0, 2] 3 (fun _ _ => (1 : ℚ))
    (by decide) (by decide) 0 (by decide)

/-! ### Helper lemmas for row identity and counting -/

theorem mem_batchIds (b : Batch) (i : Nat) :
    i ∈ batchIds b ↔ i ∈ b.recs.map (·.id) := by
  unfold batchIds sortedValues
  rw [List.mem_insertionSort, List.mem_dedup]

theorem nodup_batchIds (b : Batch) : (batchIds b).Nodup := by
  unfold batchIds sortedValues
  exact (List.perm_insertionSort _ _).nodup_iff.2 (List.nodup_dedup _)

theorem map_fst_mk (l : List Nat) (g : Nat → List Nat) :
    (l.map (fun i => (i, g i))).map Prod.fst = l := by
  induction l with
  | nil => rfl
  | cons a t ih => simp [ih]

theorem map_fst_pair (l : List (Nat × List Nat)) (g : Nat × List Nat → List Nat) :
    (l.map (fun r => (r.1, g r))).map Prod.fst = l.map Prod.fst := by
  induction l with
  | nil => rfl
  | cons a t ih => simp [ih]

theorem rows_fst_extract (b : Batch) :
    (extract_count_aggregations b).rows.map Prod.fst = batchIds b := by
  unfold extract_count_aggregations
  exact map_fst_mk _ _

theorem rows_fst_concatFill (frames : List FeatureFrame) :
    (concatFill frames).rows.map Prod.fst =
      frames.flatMap (fun t => t.rows.map Prod.fst) := by
  simp only [concatFill, List.map_flatMap]
  congr 1
  funext t
  exact map_fst_pair _ _

theorem rows_fst_projectColumns (t : FeatureFrame) (cols : List DummyCol) :
    (projectColumns t cols).rows.map Prod.fst = t.rows.map Prod.fst := by
  unfold projectColumns
  exact map_fst_pair _ _

theorem rows_fst_addZeroCols (t : FeatureFrame) (schema : List DummyCol) :
    (addZeroCols t schema).rows.map Prod.fst = t.rows.map Prod.fst := by
  unfold addZeroCols
  exact map_fst_pair _ _

theorem count_flatMap_batchIds (batches : List Batch) (i : Nat)
    (hdis : batches.Pairwise (fun b b' =>
      ∀ n ∈ b.recs.map (·.id), n ∉ b'.recs.map (·.id))) :
    (batches.flatMap batchIds).count i =
      if ∃ b ∈ batches, i ∈ b.recs.map (·.id) then 1 else 0 := by
  induction batches with
  | nil => simp
  | cons b rest ih =>
    obtain ⟨hb, hrest⟩ := List.pairwise_cons.1 hdis
    rw [List.flatMap_cons, List.count_append, ih hrest]
    by_cases hib : i ∈ b.recs.map (·.id)
    · have h1 : (batchIds b).count i = 1 :=
        List.count_eq_one_of_mem (nodup_batchIds b) ((mem_batchIds b i).2 hib)
      have h0 : ¬ ∃ b' ∈ rest, i ∈ b'.recs.map (·.id) := by
        rintro ⟨b', hb', hi'⟩
        exact hb b' hb' i hib hi'
      rw [h1, if_neg h0, if_pos ⟨b, List.mem_cons_self _ _, hib⟩]
    · have h1 : (batchIds b).count i = 0 :=
        List.count_eq_zero_of_not_mem (fun hm => hib ((mem_batchIds b i).1 hm))
      have hiff : (∃ b' ∈ b :: rest, i ∈ b'.recs.map (·.id)) ↔
          ∃ b' ∈ rest, i ∈ b'.recs.map (·.id) := by
        constructor
        · rintro ⟨b', hb', hi'⟩
          rcases List.mem_cons.1 hb' with rfl | hb''
          · exact absurd hi' hib
          · exact ⟨b', hb'', hi'⟩
        · rintro ⟨b', hb', hi'⟩
          exact ⟨b', List.mem_cons_of_mem _ hb', hi'⟩
      rw [h1]
      by_cases hex : ∃ b' ∈ rest, i ∈ b'.recs.map (·.id)
      · rw [if_pos hex, if_pos (hiff.2 hex)]
      · rw [if_neg hex, if_neg (fun hc => hex (hiff.1 hc))]

/-- C3: under the partition invariant (every entity's records are confined
to a single batch, stated as pairwise id-disjointness of the batches),
every id present in the source appears exactly once among the rows of the
feature table `__transform_data` returns — in either mode — and ids absent
from the source do not appear at all. -/
theorem C3_each_id_exactly_once (st : CountAggregator) (batches : List Batch)
    (mode : Mode) (save_to_path : Bool) (arts : List FeatureFrame)
    (st' : CountAggregator) (out : FeatureFrame)
    (h : transform_data st batches mode save_to_path = (arts, st', Except.ok out))
    (hdis : batches.Pairwise (fun b b' =>
      ∀ n ∈ b.recs.map (·.id), n ∉ b'.recs.map (·.id)))
    (i : Nat) :
    (out.rows.map Prod.fst).count i =
      if ∃ b ∈ batches, i ∈ b.recs.map (·.id) then 1 else 0 := by
  have hids : out.rows.map Prod.fst = batches.flatMap batchIds := by
    cases mode with
    | fit_transform =>
      simp only [transform_data, Prod.mk.injEq, Except.ok.injEq] at h
      obtain ⟨-, -, h3⟩ := h
      rw [← h3, rows_fst_projectColumns, rows_fst_concatFill, List.flatMap_map]
      simp only [rows_fst_extract]
    | transform =>
      obtain ⟨encOpt⟩ := st
      cases encOpt with
      | none => simp only [transform_data, Prod.mk.injEq] at h; exact absurd h.2.2 (by simp)
      | some enc =>
        simp only [transform_data, Prod.mk.injEq, Except.ok.injEq] at h
        obtain ⟨-, -, h3⟩ := h
        rw [← h3, rows_fst_projectColumns, rows_fst_addZeroCols,
          rows_fst_concatFill, List.flatMap_map]
        simp only [rows_fst_extract]
  rw [hids]
  exact count_flatMap_batchIds batches i hdis

theorem C3_each_id_exactly_once_witness :
    ((⟨[("f1", 0), ("f1", 1), ("f2", 0), ("f2", 1)],
        [(1, [1, 0, 1, 0]), (2, [1, 1, 1, 1]), (3, [0, 1, 0, 1])]⟩ :
          FeatureFrame).rows.map Prod.fst).count 2 =
      if ∃ b ∈ toyBatches, 2 ∈ b.recs.map (·.id) then 1 else 0 := by
  exact C3_each_id_exactly_once ⟨none⟩ toyBatches Mode.fit_transform false []
    ⟨some [("f1", 0), ("f1", 1), ("f2", 0), ("f2", 1)]⟩
    ⟨[("f1", 0), ("f1", 1), ("f2", 0), ("f2", 1)],
      [(1, [1, 0, 1, 0]), (2, [1, 1, 1, 1]), (3, [0, 1, 0, 1])]⟩
    (by decide) (by decide) 2

/-- C1: a fitted `transform` call returns exactly the frozen schema's
columns in fit-time order (`features[["id"] + self.encoded_features]`
drops every observed-but-unfrozen column), and every frozen-schema column
not observed in any of this call's batches is an all-zero column in every
returned row. -/
theorem C1_transform_frozen_schema (enc : List DummyCol) (batches : List Batch)
    (save_to_path : Bool) (arts : List FeatureFrame) (st' : CountAggregator)
    (out : FeatureFrame)
    (h : CountAggregator.transform ⟨some enc⟩ batches save_to_path =
      (arts, st', Except.ok out)) :
    out.cols = enc ∧
    ∀ cv ∈ enc, (∀ b ∈ batches, cv ∉ dummyColumns b) →
      ∀ r ∈ out.rows, lookupCol out.cols r.2 cv = 0 := by
  simp only [CountAggregator.transform, transform_data, Prod.mk.injEq,
    Except.ok.injEq] at h
  obtain ⟨-, -, h3⟩ := h
  subst h3
  refine ⟨rfl, ?_⟩
  intro cv hcv hunobs r hr
  simp only [projectColumns, List.mem_map] at hr
  obtain ⟨q, hq, rfl⟩ := hr
  show lookupCol enc
    (enc.map (lookupCol (addZeroCols
      (concatFill (batches.map extract_count_aggregations)) enc).cols q.2)) cv = 0
  rw [lookupCol_map, if_pos hcv]
  simp only [addZeroCols, List.mem_map] at hq
  obtain ⟨q0, hq0, rfl⟩ := hq
  have hcvF : cv ∉ (concatFill (batches.map extract_count_aggregations)).cols := by
    intro hmem
    obtain ⟨t, ht, hct⟩ := (mem_concatCols _ cv).1 hmem
    obtain ⟨b, hbmem, rfl⟩ := List.mem_map.1 ht
    exact hunobs b hbmem hct
  have hlen : (concatFill (batches.map extract_count_aggregations)).cols.length =
      q0.2.length := by
    simp only [concatFill, List.mem_flatMap, List.mem_map] at hq0
    obtain ⟨t, ht, w, hw, hq0eq⟩ := hq0
    have : q0.2 = (concatCols (batches.map extract_count_aggregations)).map
        (lookupCol t.cols w.2) := by rw [← hq0eq]
    rw [this, List.length_map]
    rfl
  show lookupCol
      ((concatFill (batches.map extract_count_aggregations)).cols ++
        enc.filter (fun c =>
          c ∉ (concatFill (batches.map extract_count_aggregations)).cols))
      (q0.2 ++ (enc.filter (fun c =>
          c ∉ (concatFill (batches.map extract_count_aggregations)).cols)).map
        (fun _ => 0)) cv = 0
  rw [lookupCol_append _ _ _ _ _ hlen, if_neg hcvF, lookupCol_map_zero]

theorem C1_transform_frozen_schema_witness :
    (⟨[("f1", 0), ("f1", 1)], [(3, [0, 1])]⟩ : FeatureFrame).cols =
      [("f1", 0), ("f1", 1)] ∧
    ∀ cv ∈ [(("f1" : String), 0), ("f1", 1)],
      (∀ b ∈ [toyBatch2], cv ∉ dummyColumns b) →
      ∀ r ∈ (⟨[("f1", 0), ("f1", 1)], [(3, [0, 1])]⟩ : FeatureFrame).rows,
        lookupCol (⟨[("f1", 0), ("f1", 1)], [(3, [0, 1])]⟩ : FeatureFrame).cols
          r.2 cv = 0 := by
  exact C1_transform_frozen_schema [("f1", 0), ("f1", 1)] [toyBatch2] false []
    ⟨some [("f1", 0), ("f1", 1)]⟩ ⟨[("f1", 0), ("f1", 1)], [(3, [0, 1])]⟩
    (by decide)

/-! ### Helper lemmas for count correctness -/

theorem sum_map_dummyValue (b : Batch) (l : List HistoryRecord) (c : String)
    (v : Nat) :
    (l.map (fun r => dummyValue b r (c, v))).sum =
      l.countP (fun r => cellVal b.featCols r.cells c = some v) := by
  induction l with
  | nil => rfl
  | cons r t ih =>
    rw [List.map_cons, List.sum_cons, List.countP_cons, ih]
    by_cases hcell : cellVal b.featCols r.cells c = some v
    · simp [dummyValue, hcell, Nat.add_comm]
    · simp [dummyValue, hcell]

theorem cellVal_some_mem (cols : List String) (cells : List Nat) (c : String)
    (v : Nat) (h : cellVal cols cells c = some v) : c ∈ cols := by
  induction cols generalizing cells with
  | nil => simp [cellVal] at h
  | cons c0 cs ih =>
    cases cells with
    | nil => simp [cellVal] at h
    | cons x xs =>
      by_cases hc : c0 = c
      · exact hc ▸ List.mem_cons_self _ _
      · simp only [cellVal, if_neg hc] at h
        exact List.mem_cons_of_mem _ (ih xs h)

theorem mem_dummyColumns_of_cellVal (b : Batch) (r : HistoryRecord) (c : String)
    (v : Nat) (hr : r ∈ b.recs) (h : cellVal b.featCols r.cells c = some v) :
    (c, v) ∈ dummyColumns b := by
  unfold dummyColumns
  rw [List.mem_flatMap]
  refine ⟨c, cellVal_some_mem _ _ _ _ h, ?_⟩
  rw [List.mem_map]
  refine ⟨v, ?_, rfl⟩
  unfold sortedValues
  rw [List.mem_insertionSort, List.mem_dedup, List.mem_filterMap]
  exact ⟨r, hr, h⟩

/-- C2: after a fit, the frozen schema is exactly the returned column list,
and when all of entity `i`'s records sit in the single batch `b` (the other
batches carry none of its records), the feature value `fit_transform`
produces for `i` at any schema column `(c, v)` is the number of `i`'s
history records whose column `c` holds value `v` — the group-sum of the
one-hot indicators. -/
theorem C2_fit_transform_counts (st : CountAggregator) (pre post : List Batch)
    (b : Batch) (save_to_path : Bool) (arts : List FeatureFrame)
    (st' : CountAggregator) (out : FeatureFrame)
    (h : CountAggregator.fit_transform st (pre ++ b :: post) save_to_path =
      (arts, st', Except.ok out))
    (i : Nat)
    (hpre : ∀ b' ∈ pre, i ∉ b'.recs.map (·.id))
    (hpost : ∀ b' ∈ post, i ∉ b'.recs.map (·.id))
    (c : String) (v : Nat) (hcv : (c, v) ∈ out.cols) :
    st'.encoded_features = some out.cols ∧
    ∀ r ∈ out.rows, r.1 = i →
      lookupCol out.cols r.2 (c, v) =
        (b.recs.filter (fun rec => rec.id = i)).countP
          (fun rec => cellVal b.featCols rec.cells c = some v) := by
  simp only [CountAggregator.fit_transform, transform_data, Prod.mk.injEq,
    Except.ok.injEq] at h
  obtain ⟨-, h2, h3⟩ := h
  subst h3
  subst h2
  have hcv' : (c, v) ∈ concatCols ((pre ++ b :: post).map extract_count_aggregations) :=
    hcv
  refine ⟨rfl, ?_⟩
  intro r hr hri
  simp only [projectColumns, List.mem_map] at hr
  obtain ⟨q, hq, rfl⟩ := hr
  show lookupCol (concatCols ((pre ++ b :: post).map extract_count_aggregations))
    ((concatCols ((pre ++ b :: post).map extract_count_aggregations)).map
      (lookupCol (concatFill ((pre ++ b :: post).map extract_count_aggregations)).cols
        q.2)) (c, v) = _
  rw [lookupCol_map, if_pos hcv']
  simp only [concatFill, List.mem_flatMap, List.mem_map] at hq
  obtain ⟨t, ht, w, hw, hqeq⟩ := hq
  subst hqeq
  show lookupCol (concatCols ((pre ++ b :: post).map extract_count_aggregations))
    ((concatCols ((pre ++ b :: post).map extract_count_aggregations)).map
      (lookupCol t.cols w.2)) (c, v) = _
  rw [lookupCol_map, if_pos hcv']
  obtain ⟨b', hb', rfl⟩ := ht
  simp only [extract_count_aggregations, List.mem_map] at hw
  obtain ⟨j, hj, rfl⟩ := hw
  have hji : j = i := hri
  subst hji
  have hib' : j ∈ b'.recs.map (·.id) := (mem_batchIds b' j).1 hj
  have hbb : b' = b := by
    rcases List.mem_append.1 hb' with hp | hmid
    · exact absurd hib' (hpre b' hp)
    · rcases List.mem_cons.1 hmid with rfl | hp2
      · rfl
      · exact absurd hib' (hpost b' hp2)
  subst hbb
  show lookupCol (dummyColumns b')
    ((dummyColumns b').map (fun cv =>
      ((b'.recs.filter (fun rec => rec.id = j)).map
        (fun rec => dummyValue b' rec cv)).sum)) (c, v) = _
  rw [lookupCol_map]
  by_cases hdc : (c, v) ∈ dummyColumns b'
  · rw [if_pos hdc]
    show ((b'.recs.filter (fun rec => rec.id = j)).map
      (fun rec => dummyValue b' rec (c, v))).sum = _
    exact sum_map_dummyValue b' _ c v
  · rw [if_neg hdc]
    symm
    rw [List.countP_eq_zero]
    intro rec hrec
    simp only [decide_eq_true_eq]
    intro hcell
    exact hdc (mem_dummyColumns_of_cellVal b' rec c v (List.mem_filter.1 hrec).1 hcell)

theorem C2_fit_transform_counts_witness :
    (⟨some [(("f1" : String), (0 : Nat)), ("f1", 1), ("f2", 0), ("f2", 1)]⟩ :
        CountAggregator).encoded_features =
      some (⟨[("f1", 0), ("f1", 1), ("f2", 0), ("f2", 1)],
        [(1, [1, 0, 1, 0]), (2, [1, 1, 1, 1])]⟩ : FeatureFrame).cols ∧
    ∀ r ∈ (⟨[("f1", 0), ("f1", 1), ("f2", 0), ("f2", 1)],
        [(1, [1, 0, 1, 0]), (2, [1, 1, 1, 1])]⟩ : FeatureFrame).rows, r.1 = 2 →
      lookupCol (⟨[("f1", 0), ("f1", 1), ("f2", 0), ("f2", 1)],
          [(1, [1, 0, 1, 0]), (2, [1, 1, 1, 1])]⟩ : FeatureFrame).cols r.2
          ("f1", 0) =
        (toyBatch1.recs.filter (fun rec => rec.id = 2)).countP
          (fun rec => cellVal toyBatch1.featCols rec.cells "f1" = some 0) := by
  exact C2_fit_transform_counts ⟨none⟩ [] [] toyBatch1 false []
    ⟨some [("f1", 0), ("f1", 1), ("f2", 0), ("f2", 1)]⟩
    ⟨[("f1", 0), ("f1", 1), ("f2", 0), ("f2", 1)],
      [(1, [1, 0, 1, 0]), (2, [1, 1, 1, 1])]⟩
    (by decide) 2 (by decide) (by decide) "f1" 0 (by decide)
